import Mathlib

/-!
Shallow embedding of the `bad_take` crate (`src/lib.rs`).

The crate provides `IterTake`, a mutable iterator over a `Vec<T>` that
yields at most one `Take` handle at a time; a `Take` can be resolved by
`Take::take` (order-preserving removal via `Vec::remove`), by
`Take::take_unstable` (`Vec::swap_remove`), or implicitly by `Drop`
(no removal, cursor index advances by one).

The embedding models the backing `Vec<T>` as a `List T`, and the
iterator state (`IterTake`'s fields `inner`, `index`, `panic`) as an
explicit record threaded through each operation.  A `Take` handle is
represented by its bound index together with the cursor state it is
attached to.  Fallible operations (`Vec::remove`, `Vec::swap_remove`,
unchecked indexing) return `Option`.  A call to `next` that would panic
is modelled by the distinguished outcome `NextOut.panicked`.
-/

namespace BadTake

/-- Cursor state: the fields of the Rust struct `IterTake`.
`inner` is the backing vector (`NonNull<Vec<T>>` dereferenced),
`index` the current position, `panic` the outstanding-handle flag. -/
structure IterTake (T : Type) where
  inner : List T
  index : Nat
  panic : Bool
deriving Repr, DecidableEq

/-- Outcome of `IterTake::next`: a panic, `None` (with the unchanged
cursor state), or `Some(Take)` — a handle bound to an index, with the
updated cursor state. -/
inductive NextOut (T : Type) where
  | panicked : NextOut T
  | done : IterTake T → NextOut T
  | yielded : Nat → IterTake T → NextOut T
deriving Repr, DecidableEq

/-- Model of `Vec::remove(index)`: removes and returns the element at
`index`, shifting all later elements down by one; `none` when the index
is out of bounds (Rust panics there). -/
def removeAt {T : Type} : List T → Nat → Option (T × List T)
  | [], _ => none
  | x :: xs, 0 => some (x, xs)
  | x :: xs, n + 1 => (removeAt xs n).map fun p => (p.1, x :: p.2)

/-- Model of `Vec::swap_remove(index)`: removes and returns the element
at `index`, moving the last element into its slot; `none` when the index
is out of bounds (Rust panics there). -/
def swapRemoveAt {T : Type} (l : List T) (i : Nat) : Option (T × List T) :=
  match l[i]? with
  | none => none
  | some x =>
    match l.getLast? with
    | none => none
    | some last => some (x, (l.set i last).dropLast)

/-- `IterTake::next` (src/lib.rs:133-148): panics if the `panic` flag is
set; returns `None` when `index` equals the freshly re-read length;
otherwise sets the flag and yields a handle bound to the current index
(the index itself is not changed by `next`). -/
def IterTake.next {T : Type} (s : IterTake T) : NextOut T :=
  if s.panic then NextOut.panicked
  else if s.index = s.inner.length then NextOut.done s
  else NextOut.yielded s.index { s with panic := true }

/-- `Take::take` (src/lib.rs:158-169): clears the parent's `panic` flag
and removes the bound element order-preservingly, returning it.  The
cursor's `index` is left unchanged.  The handle is consumed
(`ManuallyDrop` prevents `Drop::drop` from also running). -/
def Take.take {T : Type} (s : IterTake T) (idx : Nat) : Option (T × IterTake T) :=
  match removeAt s.inner idx with
  | none => none
  | some (x, l) => some (x, { inner := l, index := s.index, panic := false })

/-- `Take::take_unstable` (src/lib.rs:173-184): clears the parent's
`panic` flag and removes the bound element with `swap_remove`,
returning it.  The cursor's `index` is left unchanged. -/
def Take.take_unstable {T : Type} (s : IterTake T) (idx : Nat) : Option (T × IterTake T) :=
  match swapRemoveAt s.inner idx with
  | none => none
  | some (x, l) => some (x, { inner := l, index := s.index, panic := false })

/-- `<Take as Drop>::drop` (src/lib.rs:187-198): implicit resolution —
clears the parent's `panic` flag and advances the cursor's `index` by
one; nothing is removed. -/
def Take.drop {T : Type} (s : IterTake T) : IterTake T :=
  { inner := s.inner, index := s.index + 1, panic := false }

/-- `<Take as Deref>::deref` (src/lib.rs:200-206): unchecked read of the
bound element; modelled totally with `Option`, `none` standing for the
out-of-bounds (undefined-behaviour) branch. -/
def Take.deref {T : Type} (s : IterTake T) (idx : Nat) : Option T :=
  s.inner[idx]?

/-- `<Take as DerefMut>::deref_mut` (src/lib.rs:208-218): mutable access
to the bound element, modelled as writing a value `v` into that slot. -/
def Take.deref_mut {T : Type} (s : IterTake T) (idx : Nat) (v : T) : IterTake T :=
  { s with inner := s.inner.set idx v }

/-- Cursor bounds invariant from the spec: `0 ≤ index ≤ len(storage)`
between calls (the lower bound is implicit in `Nat`). -/
def cursorInv {T : Type} (s : IterTake T) : Prop :=
  s.index ≤ s.inner.length

/-- A live handle bound to `idx`: the outstanding flag is set, the bound
index is the cursor's index, and it is in bounds. -/
def liveHandle {T : Type} (s : IterTake T) (idx : Nat) : Prop :=
  s.panic = true ∧ idx = s.index ∧ s.index < s.inner.length

/-- Driver modelling `v.iter_take().filter(P).map(Take::take).collect()`:
each yielded handle is dereferenced and tested with `P`; matching
handles are resolved with `Take::take` (the value is collected),
non-matching handles are dropped by the `filter` combinator (implicit
resolution).  Fuel-indexed to make the recursion structural. -/
def runFilterTakeAux {T : Type} (P : T → Bool) :
    Nat → IterTake T → List T → List T × IterTake T
  | 0, s, acc => (acc.reverse, s)
  | fuel + 1, s, acc =>
    match s.next with
    | NextOut.panicked => (acc.reverse, s)
    | NextOut.done s2 => (acc.reverse, s2)
    | NextOut.yielded idx s2 =>
      match Take.deref s2 idx with
      | none => (acc.reverse, s2)
      | some x =>
        if P x then
          match Take.take s2 idx with
          | none => (acc.reverse, s2)
          | some (y, s3) => runFilterTakeAux P fuel s3 (y :: acc)
        else
          runFilterTakeAux P fuel (Take.drop s2) acc

/-- Top-level extraction run over a fresh cursor: returns the collected
extracted values and the final backing sequence. -/
def runFilterTake {T : Type} (P : T → Bool) (l : List T) : List T × List T :=
  let r := runFilterTakeAux P (l.length + 1) { inner := l, index := 0, panic := false } []
  (r.1, r.2.inner)

/-- Modelled from the spec (reference operation for claim C2):
"remove all elements matching P, preserving order". -/
def referenceFilterRemove {T : Type} (P : T → Bool) (l : List T) : List T :=
  l.filter fun x => ! P x

/-- Modelled from the spec (reference operation for claim C2): the
elements of the sequence matching P, in original order. -/
def referenceExtract {T : Type} (P : T → Bool) (l : List T) : List T :=
  l.filter P

/-- Driver modelling `v.iter_take().for_each(drop)`: every yielded
handle is resolved implicitly. -/
def runDropAllAux {T : Type} : Nat → IterTake T → IterTake T
  | 0, s => s
  | fuel + 1, s =>
    match s.next with
    | NextOut.panicked => s
    | NextOut.done s2 => s2
    | NextOut.yielded _ s2 => runDropAllAux fuel (Take.drop s2)

/-- Top-level no-op traversal over a fresh cursor: the final backing
sequence after dropping every handle. -/
def runDropAll {T : Type} (l : List T) : List T :=
  (runDropAllAux (l.length + 1) { inner := l, index := 0, panic := false }).inner

/-! ### Helper lemmas -/

lemma next_panicked {T : Type} (s : IterTake T) (h : s.panic = true) :
    s.next = NextOut.panicked := by
  simp [IterTake.next, h]

lemma next_done {T : Type} (s : IterTake T) (h1 : s.panic = false)
    (h2 : s.index = s.inner.length) : s.next = NextOut.done s := by
  simp [IterTake.next, h1, h2]

lemma next_yielded {T : Type} (s : IterTake T) (h1 : s.panic = false)
    (h2 : s.index ≠ s.inner.length) :
    s.next = NextOut.yielded s.index { s with panic := true } := by
  simp [IterTake.next, h1, h2]

lemma next_yielded_inv {T : Type} {s : IterTake T} {idx : Nat} {s2 : IterTake T}
    (h : s.next = NextOut.yielded idx s2) :
    s.panic = false ∧ s.index ≠ s.inner.length ∧ idx = s.index ∧
      s2 = { s with panic := true } := by
  by_cases h1 : s.panic
  · simp [IterTake.next, h1] at h
  · by_cases h2 : s.index = s.inner.length
    · simp [IterTake.next, h1, h2] at h
    · simp [IterTake.next, h1, h2] at h
      exact ⟨by simpa using h1, h2, h.1.symm, h.2.symm⟩

lemma removeAt_append_cons {T : Type} (pre : List T) (x : T) (rest : List T) :
    removeAt (pre ++ x :: rest) pre.length = some (x, pre ++ rest) := by
  induction pre with
  | nil => simp [removeAt]
  | cons a pre ih => simp [removeAt, ih]

lemma getElem?_append_self {T : Type} (pre : List T) (x : T) (rest : List T) :
    (pre ++ x :: rest)[pre.length]? = some x := by
  induction pre with
  | nil => simp
  | cons a pre ih => simpa using ih

lemma removeAt_length {T : Type} :
    ∀ (l : List T) (i : Nat) (x : T) (l2 : List T),
      removeAt l i = some (x, l2) → l2.length + 1 = l.length := by
  intro l
  induction l with
  | nil => intro i x l2 h; simp [removeAt] at h
  | cons a l ih =>
    intro i x l2 h
    cases i with
    | zero =>
      simp [removeAt] at h
      simp [← h.2]
    | succ n =>
      simp [removeAt] at h
      obtain ⟨y, l3, h3, hx, hl⟩ := h
      have := ih n y l3 h3
      simp [← hl, ← this]

lemma removeAt_eq_some {T : Type} (l : List T) (i : Nat) (h : i < l.length) :
    removeAt l i = some (l.get ⟨i, h⟩, l.take i ++ l.drop (i + 1)) := by
  induction l generalizing i with
  | nil => simp at h
  | cons a l ih =>
    cases i with
    | zero => simp [removeAt]
    | succ n =>
      have hn : n < l.length := by simpa using h
      simp [removeAt, ih n hn]

/-! ### Claims -/

/-- Claim C1: for every cursor state from which `next` yields a handle,
calling `next` again on the resulting state (the handle still
outstanding) panics — it neither yields a second handle nor returns
`None`.  Since `next` is a pure function of the state and a panic does
not change it, every repeated call panics the same way. -/
theorem c1_next_while_outstanding_panics {T : Type}
    (s : IterTake T) (idx : Nat) (s2 : IterTake T)
    (h : s.next = NextOut.yielded idx s2) :
    s2.next = NextOut.panicked := by
  obtain ⟨_, _, _, hs2⟩ := next_yielded_inv h
  subst hs2
  exact next_panicked _ rfl

/-- Witness for C1 on `vec![0, 1]`: the first `next` yields a handle
bound to index 0, and a second `next` panics. -/
theorem c1_witness :
    IterTake.next (⟨[0, 1], 0, true⟩ : IterTake Nat) = NextOut.panicked :=
  c1_next_while_outstanding_panics ⟨[0, 1], 0, false⟩ 0 ⟨[0, 1], 0, true⟩ (by decide)

/-- Claim C3: for a live handle bound to index `i` over a sequence of
length `n` with `i < n`, `Take::take` removes exactly the element at
index `i` (later elements shift down by one, order preserved), returns
that element, and leaves the cursor's `index` field unchanged (and
clears the outstanding flag). -/
theorem c3_take_spec {T : Type} (l : List T) (j i : Nat) (h : i < l.length) :
    Take.take (⟨l, j, true⟩ : IterTake T) i =
      some (l.get ⟨i, h⟩, ⟨l.take i ++ l.drop (i + 1), j, false⟩) := by
  simp [Take.take, removeAt_eq_some l i h]

/-- Witness for C3 on `vec![10, 20, 30]` with the handle bound to
index 1: `take` returns 20 and leaves `[10, 30]` with the cursor index
unchanged at 1. -/
theorem c3_witness :
    (1 < 3 ∧
      Take.take (⟨[10, 20, 30], 1, true⟩ : IterTake Nat) 1 =
        some (20, ⟨[10, 30], 1, false⟩)) :=
  ⟨by decide, by
    have := c3_take_spec ([10, 20, 30] : List Nat) 1 1 (by decide)
    simpa using this⟩

/-- Claim C5: implicit resolution (`Drop`) removes nothing from the
backing sequence, increments the cursor's `index` by exactly one, and
clears the outstanding flag, so the next `next` call visits the
following original element. -/
theorem c5_drop_spec {T : Type} (s : IterTake T) :
    (Take.drop s).inner = s.inner ∧ (Take.drop s).index = s.index + 1 ∧
      (Take.drop s).panic = false := by
  simp [Take.drop]

/-- Claim C4: for a live handle bound to index `i` over a sequence of
length `n` with `i < n`, `Take::take_unstable` removes and returns the
element at index `i`, moves the last element into slot `i` (observable
whenever `i` is not the last index), shrinks the sequence by one, and
leaves the cursor's `index` field unchanged (and clears the flag). -/
theorem c4_take_unstable_spec {T : Type} (l : List T) (j i : Nat) (h : i < l.length) :
    ∃ last, l.getLast? = some last ∧
      Take.take_unstable (⟨l, j, true⟩ : IterTake T) i =
        some (l.get ⟨i, h⟩, ⟨(l.set i last).dropLast, j, false⟩) ∧
      ((l.set i last).dropLast).length = l.length - 1 ∧
      (i + 1 < l.length → ((l.set i last).dropLast)[i]? = some last) := by
  have hne : l ≠ [] := List.ne_nil_of_length_pos (Nat.lt_of_le_of_lt (Nat.zero_le i) h)
  obtain ⟨last, hlast⟩ :=
    Option.isSome_iff_exists.mp (List.getLast?_isSome.mpr hne)
  refine ⟨last, hlast, ?_, ?_, ?_⟩
  · simp [Take.take_unstable, swapRemoveAt, List.getElem?_eq_getElem h, hlast,
      List.get_eq_getElem]
  · simp
  · intro hi
    rw [List.dropLast_eq_take]
    rw [List.getElem?_take_of_lt (by simpa using (by omega : i < l.length - 1))]
    exact List.getElem?_set_self (by simpa using h)

/-- Witness for C4 on `vec![10, 20, 30]` with the handle bound to
index 0: `take_unstable` returns 10, the last element 30 moves into
slot 0 giving `[30, 20]`, the length shrinks by one and the cursor
index is unchanged. -/
theorem c4_witness :
    (0 < 3 ∧
      ∃ last, ([10, 20, 30] : List Nat).getLast? = some last ∧
        Take.take_unstable (⟨[10, 20, 30], 0, true⟩ : IterTake Nat) 0 =
          some (([10, 20, 30] : List Nat).get ⟨0, by decide⟩,
            ⟨(([10, 20, 30] : List Nat).set 0 last).dropLast, 0, false⟩) ∧
        ((([10, 20, 30] : List Nat).set 0 last).dropLast).length = 3 - 1 ∧
        (0 + 1 < 3 →
          ((([10, 20, 30] : List Nat).set 0 last).dropLast)[0]? = some last)) :=
  ⟨by decide, c4_take_unstable_spec ([10, 20, 30] : List Nat) 0 0 (by decide)⟩

/-- Claim C6: a handle yielded by `next` from a well-formed cursor state
is bound to an index strictly below the backing length; the unchecked
reads/writes of `Deref`/`DerefMut` therefore hit a valid slot (the
`none` branch of the total model is unreachable); writing through the
handle preserves the length, so the bound stays valid while the handle
is live; and the only other cursor operation, `next`, panics without
touching the sequence while the handle is outstanding. -/
theorem c6_handle_in_bounds {T : Type} (s : IterTake T) (idx : Nat)
    (s2 : IterTake T) (v : T)
    (h0 : cursorInv s) (h : s.next = NextOut.yielded idx s2) :
    idx < s2.inner.length ∧
    (Take.deref s2 idx).isSome ∧
    (Take.deref_mut s2 idx v).inner.length = s2.inner.length ∧
    (Take.deref (Take.deref_mut s2 idx v) idx).isSome ∧
    s2.next = NextOut.panicked := by
  obtain ⟨hp, hne, hidx, hs2⟩ := next_yielded_inv h
  subst hs2
  subst hidx
  have hlt : s.index < s.inner.length := Nat.lt_of_le_of_ne h0 hne
  refine ⟨hlt, ?_, ?_, ?_, next_panicked _ rfl⟩
  · simp [Take.deref, List.getElem?_eq_getElem hlt]
  · simp [Take.deref_mut]
  · have hlt2 : s.index < (s.inner.set s.index v).length := by simpa using hlt
    simp [Take.deref, Take.deref_mut, List.getElem?_eq_getElem hlt2]

/-- Witness for C6 on `vec![7]` with a fresh cursor: the yielded handle
is bound to index 0 which is in bounds, dereferencing succeeds, and
writing 9 through the handle keeps the length at 1. -/
theorem c6_witness :
    (cursorInv (⟨[7], 0, false⟩ : IterTake Nat) ∧
      (0 < (⟨[7], 0, true⟩ : IterTake Nat).inner.length ∧
        (Take.deref (⟨[7], 0, true⟩ : IterTake Nat) 0).isSome ∧
        (Take.deref_mut (⟨[7], 0, true⟩ : IterTake Nat) 0 9).inner.length =
          (⟨[7], 0, true⟩ : IterTake Nat).inner.length ∧
        (Take.deref (Take.deref_mut (⟨[7], 0, true⟩ : IterTake Nat) 0 9) 0).isSome ∧
        (⟨[7], 0, true⟩ : IterTake Nat).next = NextOut.panicked)) :=
  ⟨by simp [cursorInv],
    c6_handle_in_bounds ⟨[7], 0, false⟩ 0 ⟨[7], 0, true⟩ 9
      (by simp [cursorInv]) (by decide)⟩

/-- Claim C8: with no outstanding handle, `next` returns `None` exactly
when `index` equals the current length, and exhaustion is terminal: a
`None` result leaves the state unchanged, so every subsequent call also
returns `None` and changes nothing. -/
theorem c8_exhaustion {T : Type} (s : IterTake T) (h : s.panic = false) :
    (s.next = NextOut.done s ↔ s.index = s.inner.length) ∧
    (∀ s2, s.next = NextOut.done s2 → s2 = s ∧ s2.next = NextOut.done s2) := by
  by_cases h2 : s.index = s.inner.length
  · have hd := next_done s h h2
    refine ⟨⟨fun _ => h2, fun _ => hd⟩, ?_⟩
    intro s2 hs2
    rw [hd] at hs2
    cases hs2
    exact ⟨rfl, hd⟩
  · have hy := next_yielded s h h2
    refine ⟨⟨fun hc => ?_, fun hc => absurd hc h2⟩, ?_⟩
    · rw [hy] at hc
      cases hc
    · intro s2 hs2
      rw [hy] at hs2
      cases hs2

/-- Witness for C8 on the exhausted cursor over `vec![5]` with
`index = 1`: `next` returns `None` and leaves the state unchanged. -/
theorem c8_witness :
    ((⟨[5], 1, false⟩ : IterTake Nat).panic = false ∧
      ((⟨[5], 1, false⟩ : IterTake Nat).next =
          NextOut.done (⟨[5], 1, false⟩ : IterTake Nat) ↔
        (⟨[5], 1, false⟩ : IterTake Nat).index =
          (⟨[5], 1, false⟩ : IterTake Nat).inner.length) ∧
      (∀ s2, (⟨[5], 1, false⟩ : IterTake Nat).next = NextOut.done s2 →
        s2 = (⟨[5], 1, false⟩ : IterTake Nat) ∧ s2.next = NextOut.done s2)) :=
  ⟨rfl, c8_exhaustion (⟨[5], 1, false⟩ : IterTake Nat) rfl⟩

/-- Claim C10: every resolution path — `take`, `take_unstable`, and the
implicit `Drop` — leaves the cursor's outstanding flag cleared, and the
flag is set (exactly once) only at handle emission, so each handle sets
and clears the flag exactly once; no path leaks it set. -/
theorem c10_resolution_clears_flag {T : Type} (s : IterTake T) (idx : Nat) :
    (Take.drop s).panic = false ∧
    (∀ x s2, Take.take s idx = some (x, s2) → s2.panic = false) ∧
    (∀ x s2, Take.take_unstable s idx = some (x, s2) → s2.panic = false) ∧
    (∀ idx2 s2, s.next = NextOut.yielded idx2 s2 → s2.panic = true) := by
  refine ⟨rfl, ?_, ?_, ?_⟩
  · intro x s2 hx
    unfold Take.take at hx
    cases hr : removeAt s.inner idx with
    | none => rw [hr] at hx; cases hx
    | some p =>
      rw [hr] at hx
      cases hx
      rfl
  · intro x s2 hx
    unfold Take.take_unstable at hx
    cases hr : swapRemoveAt s.inner idx with
    | none => rw [hr] at hx; cases hx
    | some p =>
      rw [hr] at hx
      cases hx
      rfl
  · intro idx2 s2 hy
    obtain ⟨_, _, _, hs2⟩ := next_yielded_inv hy
    subst hs2
    rfl

/-- Witness for C10 on `vec![1, 2]` with a handle at index 0: each of
the three resolution paths yields a state with the flag cleared, and
emission sets it. -/
theorem c10_witness :
    ((Take.drop (⟨[1, 2], 0, true⟩ : IterTake Nat)).panic = false ∧
      (∀ x s2, Take.take (⟨[1, 2], 0, true⟩ : IterTake Nat) 0 = some (x, s2) →
        s2.panic = false) ∧
      (∀ x s2, Take.take_unstable (⟨[1, 2], 0, true⟩ : IterTake Nat) 0 =
          some (x, s2) → s2.panic = false) ∧
      (∀ idx2 s2, (⟨[1, 2], 0, true⟩ : IterTake Nat).next =
          NextOut.yielded idx2 s2 → s2.panic = true)) :=
  c10_resolution_clears_flag (⟨[1, 2], 0, true⟩ : IterTake Nat) 0

/-- Invariant characterisation of the filter-and-take loop: starting
from a cursor positioned at `pre.length` over `pre ++ rest` with no
outstanding handle, and enough fuel, the loop extracts exactly the
elements of `rest` matching `P` (in order) and leaves
`pre ++ rest.filter (not P)` with the index at the new length. -/
lemma runFilterTakeAux_spec {T : Type} (P : T → Bool) :
    ∀ (rest pre acc : List T) (fuel : Nat), rest.length < fuel →
      runFilterTakeAux P fuel ⟨pre ++ rest, pre.length, false⟩ acc =
        (acc.reverse ++ rest.filter P,
         ⟨pre ++ rest.filter (fun x => ! P x),
          pre.length + (rest.filter (fun x => ! P x)).length, false⟩) := by
  intro rest
  induction rest with
  | nil =>
    intro pre acc fuel hfuel
    cases fuel with
    | zero => omega
    | succ f =>
      have hd : IterTake.next (⟨pre, pre.length, false⟩ : IterTake T) =
          NextOut.done ⟨pre, pre.length, false⟩ :=
        next_done _ rfl rfl
      simp [runFilterTakeAux, hd]
  | cons x rest ih =>
    intro pre acc fuel hfuel
    cases fuel with
    | zero => simp at hfuel
    | succ f =>
      have hy : IterTake.next (⟨pre ++ x :: rest, pre.length, false⟩ : IterTake T) =
          NextOut.yielded pre.length ⟨pre ++ x :: rest, pre.length, true⟩ :=
        next_yielded _ rfl (by simp)
      have hget : Take.deref (⟨pre ++ x :: rest, pre.length, true⟩ : IterTake T)
          pre.length = some x := getElem?_append_self pre x rest
      by_cases hP : P x
      · have htake : Take.take (⟨pre ++ x :: rest, pre.length, true⟩ : IterTake T)
            pre.length = some (x, ⟨pre ++ rest, pre.length, false⟩) := by
          simp [Take.take, removeAt_append_cons]
        simp only [runFilterTakeAux, hy, hget, htake, hP, if_true]
        rw [ih pre (x :: acc) f (by simpa using hfuel)]
        simp [List.filter_cons, hP]
      · have hdrop : Take.drop (⟨pre ++ x :: rest, pre.length, true⟩ : IterTake T) =
            ⟨(pre ++ [x]) ++ rest, (pre ++ [x]).length, false⟩ := by
          simp [Take.drop]
        simp only [runFilterTakeAux, hy, hget, hP, if_false, hdrop]
        rw [ih (pre ++ [x]) acc f (by simpa using hfuel)]
        simp [List.filter_cons, hP]
        omega

/-- Claim C2: extracting via `iter_take().filter(P).map(Take::take)`
agrees with the reference "remove all elements matching P, preserving
order": the collected values are the elements of `S` matching `P` in
original order, and the backing sequence ends as the non-matching
elements of `S` in original order. -/
theorem c2_filter_take_parity {T : Type} (P : T → Bool) (l : List T) :
    runFilterTake P l = (referenceExtract P l, referenceFilterRemove P l) := by
  have h := runFilterTakeAux_spec P l [] [] (l.length + 1) (by omega)
  simp only [List.nil_append, List.length_nil] at h
  simp [runFilterTake, h, referenceExtract, referenceFilterRemove]

/-- Invariant characterisation of the no-op traversal: starting at
`pre.length` over `pre ++ rest` with no outstanding handle and enough
fuel, dropping every handle leaves the sequence untouched with the
index at its length. -/
lemma runDropAllAux_spec {T : Type} :
    ∀ (rest pre : List T) (fuel : Nat), rest.length < fuel →
      runDropAllAux fuel (⟨pre ++ rest, pre.length, false⟩ : IterTake T) =
        ⟨pre ++ rest, (pre ++ rest).length, false⟩ := by
  intro rest
  induction rest with
  | nil =>
    intro pre fuel hfuel
    cases fuel with
    | zero => omega
    | succ f =>
      have hd : IterTake.next (⟨pre, pre.length, false⟩ : IterTake T) =
          NextOut.done ⟨pre, pre.length, false⟩ :=
        next_done _ rfl rfl
      simp [runDropAllAux, hd]
  | cons x rest ih =>
    intro pre fuel hfuel
    cases fuel with
    | zero => simp at hfuel
    | succ f =>
      have hy : IterTake.next (⟨pre ++ x :: rest, pre.length, false⟩ : IterTake T) =
          NextOut.yielded pre.length ⟨pre ++ x :: rest, pre.length, true⟩ :=
        next_yielded _ rfl (by simp)
      have hdrop : Take.drop (⟨pre ++ x :: rest, pre.length, true⟩ : IterTake T) =
          ⟨(pre ++ [x]) ++ rest, (pre ++ [x]).length, false⟩ := by
        simp [Take.drop]
      simp only [runDropAllAux, hy, hdrop]
      rw [ih (pre ++ [x]) f (by simpa using hfuel)]
      simp

/-- Claim C7: iterating to exhaustion and resolving every handle
implicitly (no extraction) leaves the backing sequence value-for-value
identical to its state before iteration, in the same order. -/
theorem c7_noop_traversal {T : Type} (l : List T) :
    runDropAll l = l := by
  have h := runDropAllAux_spec l [] (l.length + 1) (by omega)
  simp only [List.nil_append, List.length_nil] at h
  simp [runDropAll, h]

/-- Claim C9: the cursor invariant `0 ≤ index ≤ len(storage)` is
preserved by every operation: `next` (both outcomes; a successful yield
additionally establishes a live in-bounds handle), `take` and
`take_unstable` (which shrink the sequence but leave `index` unchanged,
still in bounds because the handle was in bounds), and implicit `drop`
(which increments `index` by one, staying within bounds). -/
theorem c9_index_bounds {T : Type} :
    (∀ s : IterTake T, cursorInv s →
      (∀ s2, s.next = NextOut.done s2 → cursorInv s2) ∧
      (∀ idx s2, s.next = NextOut.yielded idx s2 →
        cursorInv s2 ∧ liveHandle s2 idx)) ∧
    (∀ (s : IterTake T) (idx : Nat), liveHandle s idx →
      (∀ x s2, Take.take s idx = some (x, s2) →
        cursorInv s2 ∧ s2.index = s.index) ∧
      (∀ x s2, Take.take_unstable s idx = some (x, s2) →
        cursorInv s2 ∧ s2.index = s.index) ∧
      (cursorInv (Take.drop s) ∧ (Take.drop s).index = s.index + 1)) := by
  constructor
  · intro s hs
    constructor
    · intro s2 h2
      by_cases h1 : s.panic
      · simp [IterTake.next, h1] at h2
      · by_cases hl : s.index = s.inner.length
        · simp [IterTake.next, h1, hl] at h2
          subst h2
          exact hs
        · simp [IterTake.next, h1, hl] at h2
    · intro idx s2 h2
      obtain ⟨hp, hne, hidx, hs2⟩ := next_yielded_inv h2
      subst hs2
      subst hidx
      exact ⟨hs, rfl, rfl, Nat.lt_of_le_of_ne hs hne⟩
  · intro s idx hlive
    obtain ⟨hp, hidx, hlt⟩ := hlive
    refine ⟨?_, ?_, ?_, rfl⟩
    · intro x s2 hx
      unfold Take.take at hx
      cases hr : removeAt s.inner idx with
      | none => rw [hr] at hx; cases hx
      | some p =>
        rw [hr] at hx
        cases hx
        have hlen := removeAt_length s.inner idx p.1 p.2 (by rw [hr])
        refine ⟨?_, rfl⟩
        show s.index ≤ p.2.length
        omega
    · intro x s2 hx
      unfold Take.take_unstable at hx
      unfold swapRemoveAt at hx
      cases hg : s.inner[idx]? with
      | none => rw [hg] at hx; cases hx
      | some y =>
        rw [hg] at hx
        cases hl : s.inner.getLast? with
        | none => rw [hl] at hx; cases hx
        | some last =>
          rw [hl] at hx
          cases hx
          refine ⟨?_, rfl⟩
          show s.index ≤ ((s.inner.set idx last).dropLast).length
          simp
          omega
    · show s.index + 1 ≤ s.inner.length
      omega

/-- Witness for C9 on `vec![3]` with a live handle at index 0: the
implicit drop leaves the index within bounds. -/
theorem c9_witness :
    cursorInv (Take.drop (⟨[3], 0, true⟩ : IterTake Nat)) :=
  ((c9_index_bounds.2 (⟨[3], 0, true⟩ : IterTake Nat) 0
    ⟨rfl, rfl, by simp⟩).2.2).1

end BadTake
